import Mathlib

/-!
Verification of the coeng2 concept-notation core against its specification.

The development shallowly embeds the TypeScript sources:
  * `src/packages/core/concept.ts`   — the `Concept` data type, key derivation
    (`joinKeys`, `fromParts`), (de)serialization, tag classification
    (`getTagSet`) and masking (`toMask`), plus the permutation combinators
    (`combinePermutationSegments` and the `INLINE_BRANCHING` visitor).
  * `src/packages/core/lang/tokens.ts` — the tokenizer (`defaultTokenParsers`,
    `tokenize`), with each regular expression re-implemented as an explicit
    prefix-matching function on `List Char`.
  * `src/packages/core/lang/parse.ts` — `parseConcepts` with its
    `ConceptParsingContext`, embedded with the mutable parent-linked tree
    replaced by a zipper (current branch node plus the path of its
    ancestors); the permutation cache keyed by node identity becomes a
    per-node `Option` field, which is faithful because the cache is only
    ever read and written through a node's own identity.
  * `src/packages/core/lang/ast.ts` — `AstNode.parseTokens` and
    `astTokenHandlers`, embedded with the same zipper technique.

Strings are modelled as `List Char`; JavaScript's `trimStart`/`trimEnd` are
modelled over the ASCII whitespace characters, and `toUpperCase` as
`Char.toUpper` on each character (ASCII), which is the fragment the claims
exercise.
-/

namespace Coeng

/-! ## Concept model (`src/packages/core/concept.ts`) -/

/-- `Concept` from `concept.ts`: a key plus an ordered list of parts.
The optional, non-owning `context` back-reference is not part of the
structural value (it is never set by the core) and is omitted. -/
inductive Concept where
  | mk (key : String) (parts : List Concept)

def Concept.key : Concept → String
  | .mk k _ => k

def Concept.parts : Concept → List Concept
  | .mk _ ps => ps

@[simp] theorem Concept.key_mk (k : String) (ps : List Concept) :
    (Concept.mk k ps).key = k := rfl

@[simp] theorem Concept.parts_mk (k : String) (ps : List Concept) :
    (Concept.mk k ps).parts = ps := rfl

/-- `Concept.joinKeys` from `concept.ts`: zero parts give `""`, one part
gives that part's key, otherwise the raw keys are joined with single
spaces (`parts.map(part => part.key).join(' ')`). -/
def Concept.joinKeys (parts : List Concept) : String :=
  match parts with
  | [] => ""
  | [p] => p.key
  | _ => String.intercalate " " (parts.map Concept.key)

/-- `Concept.fromParts` from `concept.ts`. -/
def Concept.fromParts (parts : List Concept) : Concept :=
  match parts with
  | [] => .mk "" []
  | [p] => p
  | _ => .mk (Concept.joinKeys parts) parts

/-- `SerializedConcept` from `concept.ts`. -/
inductive SerializedConcept where
  | mk (key : String) (parts : List SerializedConcept)

theorem Concept.sizeOf_lt_of_mem {p : Concept} {ps : List Concept}
    (hp : p ∈ ps) (k : String) : sizeOf p < sizeOf (Concept.mk k ps) := by
  have h := List.sizeOf_lt_of_mem hp
  simp only [Concept.mk.sizeOf_spec]
  omega

/-- `Concept.prototype.serialize` from `concept.ts`. -/
def Concept.serialize : Concept → SerializedConcept
  | .mk k ps => .mk k (ps.attach.map fun x => Concept.serialize x.1)
termination_by c => sizeOf c
decreasing_by exact Concept.sizeOf_lt_of_mem x.2 k

/-- `Concept.deserialize` from `concept.ts`. -/
def Concept.deserialize : SerializedConcept → Concept
  | .mk k ps => .mk k (ps.attach.map fun x => Concept.deserialize x.1)
termination_by s => sizeOf s
decreasing_by
  have h := List.sizeOf_lt_of_mem x.2
  simp only [SerializedConcept.mk.sizeOf_spec]
  omega

/-- Structural induction principle for `Concept` that hands the inductive
hypothesis to every member of the part list. -/
theorem Concept.induct (motive : Concept → Prop)
    (h : ∀ k ps, (∀ p ∈ ps, motive p) → motive (Concept.mk k ps)) :
    ∀ c, motive c := fun c =>
  match c with
  | .mk k ps => h k ps fun p hp => Concept.induct motive h p
termination_by c => sizeOf c
decreasing_by exact Concept.sizeOf_lt_of_mem hp k

theorem List.attach_map_fst {α β : Type _} (l : List α) (f : α → β) :
    l.attach.map (fun x => f x.1) = l.map f := by
  exact List.attach_map_val l f

@[simp] theorem Concept.serialize_mk (k : String) (ps : List Concept) :
    (Concept.mk k ps).serialize = .mk k (ps.map Concept.serialize) := by
  rw [Concept.serialize, List.attach_map_fst]

@[simp] theorem Concept.deserialize_mk (k : String) (ps : List SerializedConcept) :
    Concept.deserialize (.mk k ps) = .mk k (ps.map Concept.deserialize) := by
  rw [Concept.deserialize, List.attach_map_fst]

/-- C6: For every concept tree `c`, `deserialize(serialize(c))` is
structurally equal to `c`: the serialization round trip is lossless. -/
theorem Concept.deserialize_serialize (c : Concept) :
    Concept.deserialize (Concept.serialize c) = c := by
  induction c using Concept.induct with
  | _ k ps ih =>
    rw [Concept.serialize_mk, Concept.deserialize_mk, List.map_map]
    congr 1
    calc ps.map (Concept.deserialize ∘ Concept.serialize)
        = ps.map id := List.map_congr_left fun p hp => ih p hp
      _ = ps := List.map_id ps

/-! ## Tag classification (`Concept.getTagSet` in `concept.ts`) -/

/-- `ConceptTag` from `concept.ts`. -/
inductive ConceptTag where
  | ATOM | LITERAL | VARIABLE | DIRECTIVE | COMMAND_NAME | COMMAND
  | COMPOUND | PATTERN | TRIGGER_CLAUSE | TRIGGER_NAME | TRIGGER
deriving DecidableEq, Repr

/-- The tag an atomic concept gets besides `ATOM` in `getTagSet`:
`VARIABLE` if the key starts with `$`, else `DIRECTIVE` if it starts with
`@`, else `COMMAND_NAME` if `key.toUpperCase() === key`, else `LITERAL`.
`startsWith` is modelled as a check on the first character and
`toUpperCase` as per-character ASCII upper-casing, both over the key's
character list. -/
def atomicTag (key : String) : ConceptTag :=
  if key.data.head? = some '$' then .VARIABLE
  else if key.data.head? = some '@' then .DIRECTIVE
  else if key.data.map Char.toUpper = key.data then .COMMAND_NAME
  else .LITERAL

/-- `Concept.prototype.getTagSet` from `concept.ts`. The externally
supplied directive vocabulary (`Object.values(TriggerDirective)`, owned by
the out-of-scope trigger subsystem) is passed as the `vocab` parameter.
The JavaScript `Set` is modelled as the list of tags in insertion order;
the `if`/`else` chain adds exactly one tag besides `ATOM`/`COMPOUND`. -/
def Concept.getTagSet (vocab : List String) : Concept → List ConceptTag
  | .mk key [] => [.ATOM, atomicTag key]
  | .mk _ (p0 :: rest) =>
    let parts := p0 :: rest
    let partTags := parts.attach.flatMap fun x => Concept.getTagSet vocab x.1
    [ConceptTag.COMPOUND,
      if ConceptTag.COMMAND_NAME ∈ Concept.getTagSet vocab p0 then .COMMAND
      else if ConceptTag.PATTERN ∈ partTags ∨ ConceptTag.VARIABLE ∈ partTags then
        .PATTERN
      else if ConceptTag.TRIGGER_NAME ∈ partTags ∨ ConceptTag.TRIGGER_CLAUSE ∈ partTags then
        .TRIGGER
      else if parts.length = 3 ∧ (parts.getD 2 (.mk "" [])).key ∈ vocab then
        .TRIGGER_CLAUSE
      else .LITERAL]
termination_by c => sizeOf c
decreasing_by
  · exact Concept.sizeOf_lt_of_mem x.2 _
  · exact Concept.sizeOf_lt_of_mem (List.mem_cons_self p0 rest) _

/-- `Concept.prototype.is` from `concept.ts`. -/
def Concept.is (vocab : List String) (c : Concept) (tag : ConceptTag) : Prop :=
  tag ∈ c.getTagSet vocab

instance (vocab : List String) (c : Concept) (tag : ConceptTag) :
    Decidable (c.is vocab tag) := by
  unfold Concept.is; infer_instance

/-- `Concept.prototype.toMask` from `concept.ts`: a `LITERAL` concept maps
to itself, a `VARIABLE` concept to the placeholder with key `"$"`, and any
other concept to the same key with each part recursively masked. -/
def Concept.toMask (vocab : List String) (c : Concept) : Concept :=
  if c.is vocab .LITERAL then c
  else if c.is vocab .VARIABLE then .mk "$" []
  else .mk c.key (c.parts.attach.map fun x => Concept.toMask vocab x.1)
termination_by sizeOf c
decreasing_by
  have h := List.sizeOf_lt_of_mem x.2
  cases c with
  | mk k ps => simp only [Concept.parts_mk] at h; simp only [Concept.mk.sizeOf_spec]; omega

theorem List.attach_flatMap_fst {α β : Type _} (l : List α) (f : α → List β) :
    l.attach.flatMap (fun x => f x.1) = l.flatMap f := by
  simp only [List.flatMap_def, List.attach_map_val]

@[simp] theorem Concept.getTagSet_atom (vocab : List String) (key : String) :
    (Concept.mk key []).getTagSet vocab = [.ATOM, atomicTag key] := by
  rw [Concept.getTagSet]

theorem Concept.getTagSet_cons (vocab : List String) (k : String)
    (p0 : Concept) (rest : List Concept) :
    (Concept.mk k (p0 :: rest)).getTagSet vocab =
      [ConceptTag.COMPOUND,
        if ConceptTag.COMMAND_NAME ∈ p0.getTagSet vocab then .COMMAND
        else if ConceptTag.PATTERN ∈ (p0 :: rest).flatMap (Concept.getTagSet vocab) ∨
            ConceptTag.VARIABLE ∈ (p0 :: rest).flatMap (Concept.getTagSet vocab) then
          .PATTERN
        else if ConceptTag.TRIGGER_NAME ∈ (p0 :: rest).flatMap (Concept.getTagSet vocab) ∨
            ConceptTag.TRIGGER_CLAUSE ∈ (p0 :: rest).flatMap (Concept.getTagSet vocab) then
          .TRIGGER
        else if (p0 :: rest).length = 3 ∧
            ((p0 :: rest).getD 2 (.mk "" [])).key ∈ vocab then
          .TRIGGER_CLAUSE
        else .LITERAL] := by
  rw [Concept.getTagSet]
  simp only [List.attach_flatMap_fst]

/-- The compound branch of `getTagSet` never produces `VARIABLE`: the tag
set of a compound is `COMPOUND` plus one of the five classifier tags. -/
theorem Concept.variable_not_mem_compound (vocab : List String) (k : String)
    (p0 : Concept) (rest : List Concept) :
    ConceptTag.VARIABLE ∉ (Concept.mk k (p0 :: rest)).getTagSet vocab := by
  rw [Concept.getTagSet_cons]
  intro h
  simp only [List.mem_cons, List.not_mem_nil, or_false] at h
  rcases h with h | h
  · exact absurd h (by decide)
  · split at h
    · exact absurd h (by decide)
    · split at h
      · exact absurd h (by decide)
      · split at h
        · exact absurd h (by decide)
        · split at h
          · exact absurd h (by decide)
          · exact absurd h (by decide)

theorem Concept.toMask_of_literal {vocab : List String} {c : Concept}
    (h : c.is vocab .LITERAL) : c.toMask vocab = c := by
  rw [Concept.toMask, if_pos h]

theorem Concept.toMask_of_variable {vocab : List String} {c : Concept}
    (h1 : ¬c.is vocab .LITERAL) (h2 : c.is vocab .VARIABLE) :
    c.toMask vocab = .mk "$" [] := by
  rw [Concept.toMask, if_neg h1, if_pos h2]

theorem Concept.toMask_of_other {vocab : List String} {c : Concept}
    (h1 : ¬c.is vocab .LITERAL) (h2 : ¬c.is vocab .VARIABLE) :
    c.toMask vocab = .mk c.key (c.parts.map (Concept.toMask vocab)) := by
  rw [Concept.toMask, if_neg h1, if_neg h2, List.attach_map_val]

theorem Concept.dollar_atom_is_variable (vocab : List String) :
    ¬(Concept.mk "$" []).is vocab .LITERAL ∧ (Concept.mk "$" []).is vocab .VARIABLE := by
  constructor <;>
    · simp only [Concept.is, Concept.getTagSet_atom]
      decide

/-- C7: masking is idempotent — `toMask (toMask c) = toMask c` for every
concept `c` and every directive vocabulary. -/
theorem Concept.toMask_idempotent (vocab : List String) (c : Concept) :
    (c.toMask vocab).toMask vocab = c.toMask vocab := by
  induction c using Concept.induct with
  | _ k ps ih =>
    by_cases hL : (Concept.mk k ps).is vocab .LITERAL
    · rw [Concept.toMask_of_literal hL, Concept.toMask_of_literal hL]
    · by_cases hV : (Concept.mk k ps).is vocab .VARIABLE
      · rw [Concept.toMask_of_variable hL hV,
          Concept.toMask_of_variable (Concept.dollar_atom_is_variable vocab).1
            (Concept.dollar_atom_is_variable vocab).2]
      · rw [Concept.toMask_of_other hL hV]
        simp only [Concept.key_mk, Concept.parts_mk]
        by_cases hmL : (Concept.mk k (ps.map (Concept.toMask vocab))).is vocab .LITERAL
        · rw [Concept.toMask_of_literal hmL]
        · have hmV : ¬(Concept.mk k (ps.map (Concept.toMask vocab))).is vocab .VARIABLE := by
            cases ps with
            | nil => simpa using hV
            | cons p0 rest =>
              simp only [List.map_cons]
              exact Concept.variable_not_mem_compound vocab k _ _
          rw [Concept.toMask_of_other hmL hmV]
          simp only [Concept.key_mk, Concept.parts_mk, List.map_map]
          congr 1
          exact List.map_congr_left fun p hp => ih p hp

/-- The five mutually exclusive classifier tags a compound concept can get
besides `COMPOUND`. -/
def classifierTags : List ConceptTag :=
  [.COMMAND, .PATTERN, .TRIGGER, .TRIGGER_CLAUSE, .LITERAL]

theorem filter_classifier_pair {y : ConceptTag} (hy : y ∈ classifierTags) :
    (List.filter (fun t => decide (t ∈ classifierTags))
      [ConceptTag.COMPOUND, y]).length = 1 := by
  fin_cases hy <;> decide

/-- C5: a compound whose first part is tagged `COMMAND_NAME` is classified
`COMMAND` and never `PATTERN` (even when later parts carry `VARIABLE` or
`PATTERN`), and every compound gets exactly one of `COMMAND`, `PATTERN`,
`TRIGGER`, `TRIGGER_CLAUSE`, `LITERAL`, tested in that precedence order by
the `if`/`else` chain of `getTagSet`. -/
theorem Concept.command_classification :
    (∀ (vocab : List String) (k : String) (p0 : Concept) (rest : List Concept),
      ConceptTag.COMMAND_NAME ∈ p0.getTagSet vocab →
        ConceptTag.COMMAND ∈ (Concept.mk k (p0 :: rest)).getTagSet vocab ∧
        ConceptTag.PATTERN ∉ (Concept.mk k (p0 :: rest)).getTagSet vocab) ∧
    (∀ (vocab : List String) (k : String) (p0 : Concept) (rest : List Concept),
      (((Concept.mk k (p0 :: rest)).getTagSet vocab).filter
        (fun t => decide (t ∈ classifierTags))).length = 1) := by
  constructor
  · intro vocab k p0 rest h
    rw [Concept.getTagSet_cons, if_pos h]
    constructor
    · decide
    · decide
  · intro vocab k p0 rest
    rw [Concept.getTagSet_cons]
    apply filter_classifier_pair
    split
    · decide
    · split
      · decide
      · split
        · decide
        · split
          · decide
          · decide

/-- Witness for C5 at a concrete input: the compound `GO $x` — whose first
part is all-uppercase and whose second part is a `$` variable — classifies
as `COMMAND` and not `PATTERN`. -/
theorem Concept.command_classification_witness :
    ConceptTag.COMMAND ∈
      (Concept.mk "GO $x" [Concept.mk "GO" [], Concept.mk "$x" []]).getTagSet [] ∧
    ConceptTag.PATTERN ∉
      (Concept.mk "GO $x" [Concept.mk "GO" [], Concept.mk "$x" []]).getTagSet [] :=
  Concept.command_classification.1 [] "GO $x" (Concept.mk "GO" []) [Concept.mk "$x" []]
    (by rw [Concept.getTagSet_atom]; decide)

/-! ## C3 — `joinKeys` display forms -/

/-- C3 counterexample: `joinKeys` joins the raw keys; a part that has
sub-parts is *not* wrapped in square brackets. For the part list
`[a, [b c]]` (second part compound with key `"b c"`), the claim predicts
`"a [b c]"`, but the code produces `"a b c"`. -/
theorem joinKeys_bracket_counterexample :
    Concept.joinKeys
        [Concept.mk "a" [], Concept.mk "b c" [Concept.mk "b" [], Concept.mk "c" []]] =
      "a b c" ∧ "a b c" ≠ "a [b c]" := by
  constructor
  · rfl
  · decide

/-- C3 amended: with zero parts `joinKeys` returns `""`, with one part
that part's key, and with two or more parts the parts' raw keys —
compound or not, with no bracket wrapping — joined by single spaces. -/
theorem joinKeys_raw_keys :
    Concept.joinKeys [] = "" ∧ (∀ p : Concept, Concept.joinKeys [p] = p.key) ∧
    ∀ parts : List Concept, 2 ≤ parts.length →
      Concept.joinKeys parts = String.intercalate " " (parts.map Concept.key) := by
  refine ⟨rfl, fun p => rfl, fun parts h => ?_⟩
  match parts with
  | a :: b :: rest => rfl

/-- Witness for the amended C3 at the two-part list `[x, [y z]]`. -/
theorem joinKeys_raw_keys_witness :
    Concept.joinKeys [Concept.mk "x" [], Concept.mk "y z" [Concept.mk "y" [], Concept.mk "z" []]] =
      String.intercalate " "
        ([Concept.mk "x" [], Concept.mk "y z" [Concept.mk "y" [], Concept.mk "z" []]].map
          Concept.key) :=
  joinKeys_raw_keys.2.2 _ (by decide)

/-! ## C4 — permutation cardinality laws -/

/-- `combinePermutationSegments` from `concept.ts`: combine the
permutation sets of a branch's children by cartesian product, except that
an empty segment is skipped (it acts as an identity, not an
annihilator). -/
def combinePermutationSegments : List (List (List Concept)) → List (List Concept)
  | [] => []
  | first :: rest =>
    let restCombined := combinePermutationSegments rest
    if restCombined.isEmpty then first
    else if first.isEmpty then restCombined
    else first.flatMap fun permutation => restCombined.map fun c => permutation ++ c

/-- The `INLINE_BRANCHING` union from `concept.ts` (`astVisitors.INLINE_BRANCHING`)
and `parse.ts` (`R_CURLY`'s `reduce`-concat): the branch permutation lists
are concatenated in order. -/
def inlineBranchingPermutations
    (branchPermutations : List (List (List Concept))) : List (List Concept) :=
  branchPermutations.foldl (fun agg branch => agg ++ branch) []

theorem length_cross {α β γ : Type _} (l : List α) (m : List β) (g : α → β → γ) :
    (l.flatMap fun a => m.map (g a)).length = l.length * m.length := by
  induction l with
  | nil => simp
  | cons a t ih => simp [ih, Nat.succ_mul, Nat.add_comm]

theorem prod_filter_pos (l : List (List (List Concept))) :
    0 < ((l.filter fun s => !s.isEmpty).map List.length).prod := by
  apply List.prod_pos
  intro n hn
  simp only [List.mem_map, List.mem_filter] at hn
  obtain ⟨s, ⟨_, hs⟩, rfl⟩ := hn
  simpa [List.isEmpty_iff, List.length_pos] using hs

/-- C4 counterexample: a branch with child permutation counts `1, 0` is
claimed to produce `1 * 0 = 0` permutations, but
`combinePermutationSegments` skips the empty segment and produces 1. -/
theorem branch_product_counterexample :
    (combinePermutationSegments [[[Concept.mk "foo" []]], []]).length ≠
      (([[[Concept.mk "foo" []]], []] : List (List (List Concept))).map
        List.length).prod := by
  decide

/-- C4 amended: a branch's permutation count is the product of its
children's *nonzero* permutation counts — children with empty permutation
sets are skipped rather than annihilating the product — and is 0 exactly
when every child's set is empty; an inline branching's permutation count
is the sum of its branches' counts (union law), including zero terms. -/
theorem permutation_cardinality_laws :
    (∀ segments : List (List (List Concept)),
      (combinePermutationSegments segments).length =
        if segments.all List.isEmpty then 0
        else ((segments.filter fun s => !s.isEmpty).map List.length).prod) ∧
    (∀ branchPermutations : List (List (List Concept)),
      (inlineBranchingPermutations branchPermutations).length =
        (branchPermutations.map List.length).sum) := by
  constructor
  · intro segments
    induction segments with
    | nil => simp [combinePermutationSegments]
    | cons first rest ih =>
      show (if (combinePermutationSegments rest).isEmpty then first
          else if first.isEmpty then combinePermutationSegments rest
          else first.flatMap fun permutation =>
            (combinePermutationSegments rest).map fun c => permutation ++ c).length = _
      by_cases hrc : (combinePermutationSegments rest).isEmpty
      · rw [if_pos hrc]
        have hrest : rest.all List.isEmpty = true := by
          by_contra hall
          rw [List.isEmpty_iff, ← List.length_eq_zero] at hrc
          rw [ih, if_neg hall] at hrc
          exact absurd hrc (Nat.ne_of_gt (prod_filter_pos rest))
        by_cases hf : first.isEmpty
        · have : (first :: rest).all List.isEmpty = true := by
            simp [List.all_cons, hf, hrest]
          rw [if_pos this]
          simpa [List.isEmpty_iff] using hf
        · have : (first :: rest).all List.isEmpty = false := by
            simp [List.all_cons, hf]
          rw [if_neg (by simp [this])]
          have hfil : rest.filter (fun s => !s.isEmpty) = [] := by
            rw [List.filter_eq_nil_iff]
            intro s hs
            simpa using List.all_eq_true.mp hrest s hs
          simp [List.filter_cons, hf, hfil]
      · rw [if_neg hrc]
        have hrest : rest.all List.isEmpty = false := by
          by_contra hall
          have hall' : rest.all List.isEmpty = true := by
            cases h : rest.all List.isEmpty
            · exact absurd h hall
            · rfl
          rw [List.isEmpty_iff, ← List.length_eq_zero, ih, if_pos hall'] at hrc
          exact hrc rfl
        by_cases hf : first.isEmpty
        · rw [if_pos hf]
          have : (first :: rest).all List.isEmpty = false := by
            simp [List.all_cons, hrest]
          rw [if_neg (by simp [this]), List.filter_cons]
          simp only [hf]
          rw [ih, if_neg (by simp [hrest])]
          simp
        · rw [if_neg hf, length_cross]
          have : (first :: rest).all List.isEmpty = false := by
            simp [List.all_cons, hf]
          rw [if_neg (by simp [this]), List.filter_cons]
          simp only [hf]
          rw [ih, if_neg (by simp [hrest])]
          simp
  · intro branchPermutations
    suffices h : ∀ (acc : List (List Concept)) (l : List (List (List Concept))),
        (l.foldl (fun agg branch => agg ++ branch) acc).length =
          acc.length + (l.map List.length).sum by
      simpa using h [] branchPermutations
    intro acc l
    induction l generalizing acc with
    | nil => simp
    | cons b t ih => simp [ih, Nat.add_assoc]

/-! ## Tokenizer (`src/packages/core/lang/tokens.ts`)

Each entry of `defaultTokenParsers` is a `RegExpParser` over an anchored
regular expression; every one is re-implemented below as an explicit
prefix-matching function on `List Char` (all the expressions are
deterministic, so backtracking never arises). -/

/-- `TokenType` from `tokens.ts`. -/
inductive TokenType where
  | ATOM | BRANCH_SEPARATOR | PART_SEPARATOR
  | L_PAREN | R_PAREN | L_CURLY | R_CURLY | L_SQUARE | R_SQUARE
  | HEAD_REF | PREV_REF | SORTED_SET_INIT
deriving DecidableEq, Repr

/-- `Cursor` from `tokens.ts`. -/
structure Cursor where
  offset : Nat
  line : Nat
  column : Nat
deriving DecidableEq, Repr

/-- `Token` from `tokens.ts`; `loc.end` is named `stop` (`end` is a Lean
keyword), and the token text is kept as a character list. -/
structure Token where
  type : TokenType
  value : List Char
  start : Cursor
  stop : Cursor
deriving DecidableEq, Repr

/-- The separator run class `[, \t\n]` (identical to `[\n\t, ]`). -/
def isPadChar (c : Char) : Bool :=
  c == ',' || c == ' ' || c == '\t' || c == '\n'

/-- `/^[,\n][, \t\n]*/` — the `BRANCH_SEPARATOR` rule. -/
def matchBranchSeparator : List Char → Option (List Char)
  | c :: rest =>
    if c = ',' ∨ c = '\n' then some (c :: rest.takeWhile isPadChar) else none
  | [] => none

/-- `/^[\t ]*/` — the `PART_SEPARATOR` rule. The star may match the empty
string (which `tokenize`'s `!value` check then skips, exactly as in the
source). -/
def matchPartSeparator (input : List Char) : Option (List Char) :=
  some (input.takeWhile fun c => c == '\t' || c == ' ')

/-- `/^X[\n\t, ]*/` — the opening-bracket rules (`X` one of `(`/`{`/`[`). -/
def matchOpenBracket (b : Char) : List Char → Option (List Char)
  | c :: rest =>
    if c = b then some (c :: rest.takeWhile isPadChar) else none
  | [] => none

/-- `/^[\n\t, ]*X/` — the closing-bracket rules (`X` one of `)`/`}`/`]`). -/
def matchCloseBracket (b : Char) (input : List Char) : Option (List Char) :=
  match input.dropWhile isPadChar with
  | c :: _ => if c = b then some (input.takeWhile isPadChar ++ [c]) else none
  | [] => none

/-- `/^:/` and `/^&/` — single-character rules. -/
def matchSingleChar (b : Char) : List Char → Option (List Char)
  | c :: _ => if c = b then some [c] else none
  | [] => none

/-- `/^\.{3}[^.]/` — the `PREV_REF` rule of `tokens.ts`: three dots plus
one following non-dot character, which is part of the match. -/
def matchPrevRef : List Char → Option (List Char)
  | '.' :: '.' :: '.' :: c :: _ =>
    if c = '.' then none else some ['.', '.', '.', c]
  | _ => none

/-- The body of `/^<<(.|\n)*?>>/` after the opening `<<`: the shortest
run ending at the first `>>` (lazy star). -/
def quotedBody : List Char → Option (List Char)
  | '>' :: '>' :: _ => some ['>', '>']
  | c :: rest => (quotedBody rest).map fun body => c :: body
  | [] => none

/-- `/^<<(.|\n)*?>>/` — the quoted free-text `ATOM` rule. -/
def matchQuotedAtom : List Char → Option (List Char)
  | '<' :: '<' :: rest => (quotedBody rest).map fun body => '<' :: '<' :: body
  | _ => none

/-- The characters excluded from a generic atom: `[^ ,\n\(\)\{\}\[\]]`. -/
def isAtomChar (c : Char) : Bool :=
  !(c == ' ' || c == ',' || c == '\n' || c == '(' || c == ')' ||
    c == '{' || c == '}' || c == '[' || c == ']')

/-- `/^[^ ,\n\(\)\{\}\[\]]+/` — the generic `ATOM` rule (`+` fails on an
empty run). -/
def matchGenericAtom (input : List Char) : Option (List Char) :=
  match input.takeWhile isAtomChar with
  | [] => none
  | c :: cs => some (c :: cs)

/-- `defaultTokenParsers` from `tokens.ts`, in source order. -/
def defaultTokenParsers : List (TokenType × (List Char → Option (List Char))) :=
  [(.BRANCH_SEPARATOR, matchBranchSeparator),
   (.PART_SEPARATOR, matchPartSeparator),
   (.L_PAREN, matchOpenBracket '('),
   (.R_PAREN, matchCloseBracket ')'),
   (.L_CURLY, matchOpenBracket '{'),
   (.R_CURLY, matchCloseBracket '}'),
   (.L_SQUARE, matchOpenBracket '['),
   (.R_SQUARE, matchCloseBracket ']'),
   (.SORTED_SET_INIT, matchSingleChar ':'),
   (.HEAD_REF, matchSingleChar '&'),
   (.PREV_REF, matchPrevRef),
   (.ATOM, matchQuotedAtom),
   (.ATOM, matchGenericAtom)]

/-- The inner `tokenParserLoop` of `tokenize`: try the parsers in order,
skipping a parser whose match is `null` or empty (`if (!value) continue`). -/
def findMatch :
    List (TokenType × (List Char → Option (List Char))) → List Char →
      Option (TokenType × List Char)
  | [], _ => none
  | (ty, p) :: rest, input =>
    match p input with
    | some v => if v.isEmpty then findMatch rest input else some (ty, v)
    | none => findMatch rest input

/-- The `end` cursor `tokenize` computes for a match `v` starting at
`start`: `lines = value.split('\n')`, `end.line = start.line + lines.length`
(the source adds the full `lines.length`, not the newline count), and
`end.column` from the last line when the value spans lines. -/
def nextCursor (start : Cursor) (v : List Char) : Cursor :=
  let lines := v.splitOn '\n'
  { offset := start.offset + v.length
    line := start.line + lines.length
    column :=
      if 1 < lines.length then (lines.getLastD []).length + 1
      else start.column + v.length }

/-- The outer `inputLoop` of `tokenize`. The recursion is driven by a fuel
parameter so that the function is structurally recursive (and hence
evaluates inside the kernel); `tokenize` supplies `input.length` fuel,
which always suffices because every accepted match is non-empty
(`tokenizeLoop` is proven total under that fuel in `tokenizeLoop_isOk`).
Running out of fuel reports the same failure as the `Unexpected token`
throw; both are proven unreachable. -/
def tokenizeLoop : Nat → List Char → Cursor → Except Cursor (List Token)
  | _, [], _ => .ok []
  | 0, _ :: _, start => .error start
  | fuel + 1, input@(_ :: _), start =>
    match findMatch defaultTokenParsers input with
    | none => .error start
    | some (ty, v) =>
      match tokenizeLoop fuel (input.drop v.length) (nextCursor start v) with
      | .ok toks =>
        .ok ({ type := ty, value := v, start := start, stop := nextCursor start v } :: toks)
      | .error e => .error e

/-- JavaScript whitespace for `trimStart`/`trimEnd`, restricted to the
ASCII whitespace characters. -/
def isJsWhitespaceChar (c : Char) : Bool :=
  c == ' ' || c == '\t' || c == '\n' || c == '\r' || c == '\x0B' || c == '\x0C'

def jsTrimStart (l : List Char) : List Char := l.dropWhile isJsWhitespaceChar

def jsTrimEnd (l : List Char) : List Char :=
  (l.reverse.dropWhile isJsWhitespaceChar).reverse

/-- `input.trimStart().trimEnd()` as computed by `tokenize`. -/
def jsTrim (l : List Char) : List Char := jsTrimEnd (jsTrimStart l)

/-- The initial cursor of `tokenize`, faithfully reproducing the source's
arithmetic including the `input.slice(0, trimmedLeft.length)` computation
(it slices by the *trimmed* string's length). -/
def startCursor (input : List Char) : Cursor :=
  let trimmedLines := (input.take (jsTrimStart input).length).splitOn '\n'
  { offset := input.length - (jsTrimStart input).length
    line := trimmedLines.length
    column := (trimmedLines.getLastD []).length + 1 }

/-- `tokenize` from `tokens.ts` (with the default parsers);
`jsTrim input` is the `trimmedRight` string the loop consumes. -/
def tokenize (input : List Char) : Except Cursor (List Token) :=
  if (jsTrim input).isEmpty then .ok []
  else tokenizeLoop (jsTrim input).length (jsTrim input) (startCursor input)

/-- C8 (code bug): on input `"foo"` the single emitted token has no
embedded newline, yet its end cursor's line is `2` while its start line is
`1` — `tokenize` computes `end.line = start.line + lines.length` instead
of `start.line + (lines.length - 1)`, so `end.line` exceeds
`start.line + (number of newlines in the token text)` by one on every
token. -/
theorem tokenize_end_line_bug :
    tokenize "foo".toList =
      .ok [{ type := .ATOM, value := "foo".toList,
             start := { offset := 0, line := 1, column := 4 },
             stop := { offset := 3, line := 2, column := 7 } }] ∧
    "foo".toList.count '\n' = 0 ∧ (2 : Nat) ≠ 1 + 0 := by
  refine ⟨rfl, rfl, by decide⟩

/-! ### Prefix soundness of the lexical rules -/

/-- A parser is prefix-sound when every successful match is an initial
segment of the input (as every anchored regular expression is). -/
def GoodParse (p : List Char → Option (List Char)) : Prop :=
  ∀ input v, p input = some v → ∃ rest, v ++ rest = input

theorem matchBranchSeparator_good : GoodParse matchBranchSeparator := by
  intro input v h
  match input with
  | [] => simp [matchBranchSeparator] at h
  | c :: rest =>
    rw [matchBranchSeparator] at h
    split at h
    · cases h
      exact ⟨rest.dropWhile isPadChar,
        by rw [List.cons_append, List.takeWhile_append_dropWhile]⟩
    · cases h

theorem matchPartSeparator_good : GoodParse matchPartSeparator := by
  intro input v h
  rw [matchPartSeparator] at h
  cases h
  exact ⟨input.dropWhile _, List.takeWhile_append_dropWhile _ _⟩

theorem matchOpenBracket_good (b : Char) : GoodParse (matchOpenBracket b) := by
  intro input v h
  match input with
  | [] => simp [matchOpenBracket] at h
  | c :: rest =>
    rw [matchOpenBracket] at h
    split at h
    · cases h
      exact ⟨rest.dropWhile isPadChar,
        by rw [List.cons_append, List.takeWhile_append_dropWhile]⟩
    · cases h

theorem matchCloseBracket_good (b : Char) : GoodParse (matchCloseBracket b) := by
  intro input v h
  rw [matchCloseBracket] at h
  split at h
  · rename_i c t heq
    split at h
    · cases h
      refine ⟨t, ?_⟩
      have hsplit := List.takeWhile_append_dropWhile (p := isPadChar) (l := input)
      rw [heq] at hsplit
      rw [List.append_assoc, List.singleton_append]
      exact hsplit
    · cases h
  · cases h

theorem matchSingleChar_good (b : Char) : GoodParse (matchSingleChar b) := by
  intro input v h
  match input with
  | [] => simp [matchSingleChar] at h
  | c :: rest =>
    rw [matchSingleChar] at h
    split at h
    · cases h
      exact ⟨rest, rfl⟩
    · cases h

theorem matchPrevRef_good : GoodParse matchPrevRef := by
  intro input v h
  unfold matchPrevRef at h
  split at h
  · split at h
    · cases h
    · cases h
      exact ⟨_, rfl⟩
  · cases h

theorem quotedBody_good : ∀ input v, quotedBody input = some v →
    ∃ rest, v ++ rest = input := by
  intro input
  induction input using quotedBody.induct with
  | case1 x =>
    intro v h
    rw [quotedBody] at h
    cases h
    exact ⟨x, rfl⟩
  | case2 c rest h1 ih =>
    intro v h
    rw [quotedBody] at h
    · obtain ⟨b, hb, rfl⟩ := Option.map_eq_some'.mp h
      obtain ⟨t, ht⟩ := ih b hb
      exact ⟨t, by rw [List.cons_append, ht]⟩
    · exact h1
  | case3 =>
    intro v h
    simp [quotedBody] at h

theorem matchQuotedAtom_good : GoodParse matchQuotedAtom := by
  intro input v h
  unfold matchQuotedAtom at h
  split at h
  · obtain ⟨b, hb, rfl⟩ := Option.map_eq_some'.mp h
    obtain ⟨t, ht⟩ := quotedBody_good _ _ hb
    exact ⟨t, by rw [List.cons_append, List.cons_append, ht]⟩
  · cases h

theorem matchGenericAtom_good : GoodParse matchGenericAtom := by
  intro input v h
  rw [matchGenericAtom] at h
  revert h
  cases ht : input.takeWhile isAtomChar with
  | nil => intro h; cases h
  | cons c cs =>
    intro h
    cases h
    refine ⟨input.dropWhile isAtomChar, ?_⟩
    rw [← ht]
    exact List.takeWhile_append_dropWhile _ _

theorem defaultTokenParsers_good :
    ∀ q ∈ defaultTokenParsers, GoodParse q.2 := by
  intro q hq
  simp only [defaultTokenParsers, List.mem_cons, List.not_mem_nil, or_false] at hq
  rcases hq with rfl | rfl | rfl | rfl | rfl | rfl | rfl | rfl | rfl | rfl | rfl | rfl | rfl
  · exact matchBranchSeparator_good
  · exact matchPartSeparator_good
  · exact matchOpenBracket_good '('
  · exact matchCloseBracket_good ')'
  · exact matchOpenBracket_good '{'
  · exact matchCloseBracket_good '}'
  · exact matchOpenBracket_good '['
  · exact matchCloseBracket_good ']'
  · exact matchSingleChar_good ':'
  · exact matchSingleChar_good '&'
  · exact matchPrevRef_good
  · exact matchQuotedAtom_good
  · exact matchGenericAtom_good

theorem findMatch_good :
    ∀ (ps : List (TokenType × (List Char → Option (List Char)))),
      (∀ q ∈ ps, GoodParse q.2) → ∀ input ty v, findMatch ps input = some (ty, v) →
        v ≠ [] ∧ ∃ rest, v ++ rest = input := by
  intro ps
  induction ps with
  | nil => intro _ input ty v h; cases h
  | cons q rest ih =>
    intro hgood input ty v h
    obtain ⟨qty, qp⟩ := q
    rw [findMatch] at h
    split at h
    · rename_i m heq
      split at h
      · exact ih (fun r hr => hgood r (List.mem_cons_of_mem _ hr)) input ty v h
      · rename_i hm
        cases h
        refine ⟨by simpa [List.isEmpty_iff] using hm, ?_⟩
        exact hgood ⟨ty, qp⟩ (List.mem_cons_self _ _) input v heq
    · exact ih (fun r hr => hgood r (List.mem_cons_of_mem _ hr)) input ty v h

/-! ### Totality of the lexer -/

theorem findMatch_isSome_of_ex :
    ∀ (ps : List (TokenType × (List Char → Option (List Char)))) (input : List Char),
      (∃ q ∈ ps, ∃ v, q.2 input = some v ∧ v ≠ []) →
      (findMatch ps input).isSome = true := by
  intro ps
  induction ps with
  | nil =>
    intro input ⟨q, hq, _⟩
    cases hq
  | cons q rest ih =>
    intro input ⟨r, hr, v, hv, hvne⟩
    obtain ⟨qty, qp⟩ := q
    rw [findMatch]
    cases hp : qp input with
    | none =>
      apply ih
      rcases List.mem_cons.mp hr with rfl | hmem
      · have hv' : qp input = some v := hv
        rw [hp] at hv'
        cases hv'
      · exact ⟨r, hmem, v, hv, hvne⟩
    | some m =>
      show (if m.isEmpty = true then findMatch rest input else some (qty, m)).isSome = true
      by_cases hm : m.isEmpty = true
      · rw [if_pos hm]
        apply ih
        rcases List.mem_cons.mp hr with rfl | hmem
        · have hv' : qp input = some v := hv
          rw [hp] at hv'
          cases hv'
          exact absurd (List.isEmpty_iff.mp hm) hvne
        · exact ⟨r, hmem, v, hv, hvne⟩
      · rw [if_neg hm]
        rfl

/-- Every non-empty input matches some rule: separators and brackets are
caught by their dedicated rules and any other first character is accepted
by the final generic-atom rule. -/
theorem findMatch_total (c : Char) (rest : List Char) :
    (findMatch defaultTokenParsers (c :: rest)).isSome = true := by
  apply findMatch_isSome_of_ex
  by_cases hcm : c = ','
  · subst hcm
    exact ⟨(.BRANCH_SEPARATOR, matchBranchSeparator), by simp [defaultTokenParsers],
      ',' :: rest.takeWhile isPadChar, rfl, by simp⟩
  by_cases hnl : c = '\n'
  · subst hnl
    exact ⟨(.BRANCH_SEPARATOR, matchBranchSeparator), by simp [defaultTokenParsers],
      '\n' :: rest.takeWhile isPadChar, rfl, by simp⟩
  by_cases htb : c = '\t'
  · subst htb
    exact ⟨(.PART_SEPARATOR, matchPartSeparator), by simp [defaultTokenParsers],
      '\t' :: rest.takeWhile (fun d => d == '\t' || d == ' '), rfl, by simp⟩
  by_cases hsp : c = ' '
  · subst hsp
    exact ⟨(.PART_SEPARATOR, matchPartSeparator), by simp [defaultTokenParsers],
      ' ' :: rest.takeWhile (fun d => d == '\t' || d == ' '), rfl, by simp⟩
  by_cases hlp : c = '('
  · subst hlp
    exact ⟨(.L_PAREN, matchOpenBracket '('), by simp [defaultTokenParsers],
      '(' :: rest.takeWhile isPadChar, rfl, by simp⟩
  by_cases hrp : c = ')'
  · subst hrp
    exact ⟨(.R_PAREN, matchCloseBracket ')'), by simp [defaultTokenParsers],
      [')'], rfl, by simp⟩
  by_cases hlc : c = '{'
  · subst hlc
    exact ⟨(.L_CURLY, matchOpenBracket '{'), by simp [defaultTokenParsers],
      '{' :: rest.takeWhile isPadChar, rfl, by simp⟩
  by_cases hrc : c = '}'
  · subst hrc
    exact ⟨(.R_CURLY, matchCloseBracket '}'), by simp [defaultTokenParsers],
      ['}'], rfl, by simp⟩
  by_cases hls : c = '['
  · subst hls
    exact ⟨(.L_SQUARE, matchOpenBracket '['), by simp [defaultTokenParsers],
      '[' :: rest.takeWhile isPadChar, rfl, by simp⟩
  by_cases hrs : c = ']'
  · subst hrs
    exact ⟨(.R_SQUARE, matchCloseBracket ']'), by simp [defaultTokenParsers],
      [']'], rfl, by simp⟩
  · have hatom : isAtomChar c = true := by
      have hfalse : (c == ' ' || c == ',' || c == '\n' || c == '(' || c == ')' ||
          c == '{' || c == '}' || c == '[' || c == ']') = false := by
        simp only [Bool.or_eq_false_iff, beq_eq_false_iff_ne, ne_eq]
        exact ⟨⟨⟨⟨⟨⟨⟨⟨hsp, hcm⟩, hnl⟩, hlp⟩, hrp⟩, hlc⟩, hrc⟩, hls⟩, hrs⟩
      simp [isAtomChar, hfalse]
    refine ⟨(.ATOM, matchGenericAtom), by simp [defaultTokenParsers],
      c :: rest.takeWhile isAtomChar, ?_, by simp⟩
    unfold matchGenericAtom
    simp [List.takeWhile_cons, hatom]

theorem tokenizeLoop_isOk :
    ∀ (fuel : Nat) (input : List Char) (start : Cursor), input.length ≤ fuel →
      (tokenizeLoop fuel input start).isOk = true := by
  intro fuel
  induction fuel with
  | zero =>
    intro input start hlen
    have hnil : input = [] := List.length_eq_zero.mp (Nat.le_zero.mp hlen)
    subst hnil
    rfl
  | succ fuel ih =>
    intro input start hlen
    cases input with
    | nil => rfl
    | cons c r =>
      rw [tokenizeLoop]
      split
      · rename_i heq
        have := findMatch_total c r
        rw [heq] at this
        cases this
      · rename_i ty v heq
        obtain ⟨hne, t, ht⟩ :=
          findMatch_good defaultTokenParsers defaultTokenParsers_good (c :: r) ty v heq
        have hv : 1 ≤ v.length := by
          cases v with
          | nil => exact absurd rfl hne
          | cons a as => simp
        have hlt : ((c :: r).drop v.length).length ≤ fuel := by
          rw [List.length_drop]
          simp only [List.length_cons] at hlen ⊢
          omega
        have hrec := ih _ (nextCursor start v) hlt
        split
        · rfl
        · rename_i e heq2
          rw [heq2] at hrec
          cases hrec

/-- C10: `tokenize` never reaches its `Unexpected token` failure branch —
for every input it returns a token list (the final generic-atom rule
accepts any character no earlier rule consumed, and every accepted match
is non-empty, so the loop always progresses to the end of the input). -/
theorem tokenize_total (input : List Char) : (tokenize input).isOk = true := by
  rw [tokenize]
  split
  · rfl
  · exact tokenizeLoop_isOk _ _ _ (Nat.le_refl _)

/-! ### C9 — concatenating token texts reconstructs the trimmed source -/

theorem tokenizeLoop_concat :
    ∀ (fuel : Nat) (input : List Char) (start : Cursor) (toks : List Token),
      tokenizeLoop fuel input start = .ok toks →
      (toks.map Token.value).flatten = input := by
  intro fuel
  induction fuel with
  | zero =>
    intro input start toks h
    cases input with
    | nil => cases h; rfl
    | cons c r => cases h
  | succ fuel ih =>
    intro input start toks h
    cases input with
    | nil => cases h; rfl
    | cons c r =>
      rw [tokenizeLoop] at h
      split at h
      · cases h
      · rename_i ty v heq
        split at h
        · rename_i toks' hrec
          cases h
          simp only [List.map_cons, List.flatten_cons]
          rw [ih _ _ _ hrec]
          obtain ⟨hne, t, ht⟩ :=
            findMatch_good defaultTokenParsers defaultTokenParsers_good (c :: r) ty v heq
          rw [← ht, List.drop_left]
        · cases h

/-- C9: whenever `tokenize` succeeds, concatenating the `value` fields of
all returned tokens — separator tokens included — reconstructs exactly the
whitespace-trimmed source; in particular a whitespace-only input yields an
empty token list whose concatenation is the empty trimmed source. -/
theorem tokenize_reconstructs_trim (input : List Char) (toks : List Token)
    (h : tokenize input = .ok toks) :
    (toks.map Token.value).flatten = jsTrim input := by
  rw [tokenize] at h
  split at h
  · rename_i hempty
    cases h
    exact ((List.isEmpty_iff.mp hempty).symm : _)
  · exact tokenizeLoop_concat _ _ _ _ h

/-- Witness for C9 at the concrete source `"a b"`. -/
theorem tokenize_reconstructs_trim_witness :
    ((((tokenize "a b".toList).toOption.getD []).map Token.value).flatten =
      jsTrim "a b".toList) :=
  tokenize_reconstructs_trim _ _ rfl

/-! ## `parseConcepts` (`src/packages/core/lang/parse.ts`)

The mutable parent-linked node classes of `parse.ts` are embedded as a
zipper: the cursor (`ctx.branch`, always a `BranchNode`) is a tree value
and the ancestors are a path of contexts holding each ancestor's class,
cached permutations, and elder siblings. The `#permutationCache` keyed by
node identity becomes a per-node `Option` field, which is faithful because
the cache is only ever read and written through a node's own identity. -/

/-- `combinePermutations` from `parse.ts`, at its binary use sites (the
variadic signature is only ever applied to two lists: in `R_PAREN` and in
`ConceptParsingContext.close`'s `reduce`). An empty side is returned
unchanged — the empty list acts as an identity, with the right side
checked first. -/
def combinePermutations (left right : List (List Concept)) : List (List Concept) :=
  if right.isEmpty then left
  else if left.isEmpty then right
  else left.flatMap fun l => right.map fun r => l ++ r

/-- The node classes of `parse.ts` (`RootNode`, `BranchNode`, `AtomNode`,
`ParentheticalNode`, `InlineBranchingNode`, `CompoundNode`). -/
inductive PKind where
  | ROOT | BRANCH | ATOM | PARENTHETICAL | INLINE_BRANCHING | COMPOUND
deriving DecidableEq, Repr

/-- A `parse.ts` AST node: class, cached permutations (`none` when
`getPermutations` would return `null`), children. -/
inductive PTree where
  | node (kind : PKind) (perms : Option (List (List Concept))) (children : List PTree)

def PTree.kind : PTree → PKind
  | .node k _ _ => k

def PTree.perms : PTree → Option (List (List Concept))
  | .node _ p _ => p

def PTree.children : PTree → List PTree
  | .node _ _ cs => cs

/-- One ancestor level of the cursor: the ancestor's class, its cached
permutations, and its elder children (nearest first). -/
structure PCtx where
  kind : PKind
  perms : Option (List (List Concept))
  leftRev : List PTree

/-- Reattach the current node as the last child of its parent context. -/
def pFold (c : PTree) (ctx : PCtx) : PTree :=
  .node ctx.kind ctx.perms (ctx.leftRev.reverse ++ [c])

/-- Fold the zipper all the way up to the root node. -/
def pRoot : PTree → List PCtx → PTree
  | t, [] => t
  | t, ctx :: rest => pRoot (pFold t ctx) rest

/-- `ConceptParsingContext`: the current branch (`ctx.branch`) as a
zipper, plus the accumulated `results`. -/
structure PState where
  cur : PTree
  path : List PCtx
  results : List Concept

/-- `createChild` + move the cursor into the new child. -/
def pDown (st : PState) (k : PKind) : PState :=
  { st with
    cur := .node k none []
    path := ⟨st.cur.kind, st.cur.perms, st.cur.children.reverse⟩ :: st.path }

/-- `ConceptParsingContext.close()`: reduce the current branch's
children's cached permutations with `combinePermutations` (a child with
no cached permutations contributes `[]`) and store the result on the
branch. -/
def pClose (st : PState) : PState :=
  let combined := st.cur.children.foldl
    (fun left child => combinePermutations left (child.perms.getD [])) []
  { st with cur := .node st.cur.kind (some combined) st.cur.children }

/-- The `tokenHandlers` table of `parse.ts`. Error messages are the
sources' messages without the interpolated location. `PREV_REF` has no
handler in the table (the table keys a `PREV_SEQ_REF` type that the
`tokens.ts` `TokenType` does not produce), so dispatching it reports
`No handler for token type` exactly as `parseConcepts`' guard does. -/
def conceptTokenHandler : TokenType → Token → PState → Except String PState
  | .ATOM, tok, st =>
    -- `new AtomNode(ctx).appendTo(ctx.branch)` with permutations
    -- `[[new Concept(ctx.token.value)]]`; the cursor stays on the branch.
    .ok { st with
      cur := .node st.cur.kind st.cur.perms
        (st.cur.children ++
          [.node .ATOM (some [[Concept.mk (String.mk tok.value) []]]) []]) }
  | .BRANCH_SEPARATOR, _, st =>
    -- `ctx.close()`, then a new `BranchNode` appended to `ctx.branch.parent!`.
    let st1 := pClose st
    match st1.path with
    | [] => .error "Node has no parent"
    | ctx :: rest =>
      .ok (pDown { st1 with cur := pFold st1.cur ctx, path := rest } .BRANCH)
  | .PART_SEPARATOR, _, st => .ok st
  | .L_PAREN, _, st =>
    -- a `ParentheticalNode` under the branch, then its first `BranchNode`.
    .ok (pDown (pDown st .PARENTHETICAL) .BRANCH)
  | .R_PAREN, _, st =>
    match st.path with
    | parenCtx :: enclCtx :: rest =>
      if parenCtx.kind = .PARENTHETICAL then
        let st1 := pClose st
        let parenNode := pFold st1.cur parenCtx
        -- `parentheticalNode.prevSibling(node => !node.is(ParentheticalNode))`
        let prefixNode := enclCtx.leftRev.find? fun n => !(n.kind == .PARENTHETICAL)
        -- `(prefixNode && ctx.getPermutations(prefixNode)) || []`
        let leftPermutations :=
          match prefixNode with
          | some n => n.perms.getD []
          | none => []
        -- distribute over every non-parenthetical child branch, pushing the
        -- combined permutations into `ctx.results` as finished concepts
        let newResults :=
          (parenNode.children.filter fun child => !(child.kind == .PARENTHETICAL)).flatMap
            fun child =>
              (combinePermutations leftPermutations (child.perms.getD [])).map
                Concept.fromParts
        -- `return ctx.branch.parent?.parent` — the enclosing branch
        .ok { cur := pFold parenNode enclCtx, path := rest
              results := st1.results ++ newResults }
      else .error "Unexpected R_PAREN"
    | _ => .error "Unexpected R_PAREN"
  | .R_CURLY, _, st =>
    match st.path with
    | ibCtx :: enclCtx :: rest =>
      if ibCtx.kind = .INLINE_BRANCHING then
        let st1 := pClose st
        let ibNode := pFold st1.cur ibCtx
        -- `setPermutations(node, children.filter(not parenthetical)
        --    .map(perms || []).reduce(concat, []))`
        let newPerms := inlineBranchingPermutations
          ((ibNode.children.filter fun child => !(child.kind == .PARENTHETICAL)).map
            fun child => child.perms.getD [])
        .ok { cur := pFold (.node ibNode.kind (some newPerms) ibNode.children) enclCtx
              path := rest, results := st1.results }
      else .error "Unexpected R_CURLY"
    | _ => .error "Unexpected R_CURLY"
  | .L_CURLY, _, st =>
    .ok (pDown (pDown st .INLINE_BRANCHING) .BRANCH)
  | .L_SQUARE, _, st =>
    .ok (pDown (pDown st .COMPOUND) .BRANCH)
  | .R_SQUARE, _, st =>
    match st.path with
    | sqCtx :: enclCtx :: rest =>
      if sqCtx.kind = .COMPOUND then
        let st1 := pClose st
        let sqNode := pFold st1.cur sqCtx
        -- `children.map(perms || []).flat(1).map(p => [fromParts(p)])`
        let newPerms :=
          ((sqNode.children.map fun child => child.perms.getD []).flatten).map
            fun permutation => [Concept.fromParts permutation]
        .ok { cur := pFold (.node sqNode.kind (some newPerms) sqNode.children) enclCtx
              path := rest, results := st1.results }
      else .error "Unexpected R_SQUARE"
    | _ => .error "Unexpected R_SQUARE"
  | .HEAD_REF, _, _ => .error "Function not implemented."
  | .PREV_REF, _, _ => .error "No handler for token type"
  | .SORTED_SET_INIT, _, _ => .error "Function not implemented."

/-- `parseConcepts` of `parse.ts` applied to an already-tokenized input:
fold the handlers over the tokens, `context.close()`, then push each root
child's permutations as finished concepts after the results already
emitted by parenthetical distribution. -/
def parseConceptsTokens (tokens : List Token) : Except String (List Concept) := do
  let init : PState :=
    { cur := .node .BRANCH none [], path := [⟨.ROOT, none, []⟩], results := [] }
  let st ← tokens.foldlM (fun st tok => conceptTokenHandler tok.type tok st) init
  let st1 := pClose st
  let root := pRoot st1.cur st1.path
  pure (st1.results ++
    root.children.flatMap fun child => (child.perms.getD []).map Concept.fromParts)

/-- `parseConcepts(source)` from `parse.ts`: tokenize, then build and
expand. A lexical failure aborts the call (proven unreachable in C10). -/
def parseConcepts (source : String) : Except String (List Concept) :=
  match tokenize source.toList with
  | .error _ => .error "LexError"
  | .ok toks => parseConceptsTokens toks

/-- C1: `parseConcepts("foo (bar, baz)")` returns exactly three concepts
in order — `foo bar` and `foo baz` from parenthetical distribution first,
then the branch's own parenthetical-free `foo`. -/
theorem parseConcepts_distribution_order :
    parseConcepts "foo (bar, baz)" =
      .ok [Concept.mk "foo bar" [Concept.mk "foo" [], Concept.mk "bar" []],
           Concept.mk "foo baz" [Concept.mk "foo" [], Concept.mk "baz" []],
           Concept.mk "foo" []] := rfl

/-! ## `AstNode.parseTokens` (`src/packages/core/lang/ast.ts`)

The `astTokenHandlers` tree builder, embedded with the same zipper
technique. The `onNodeComplete` callback only observes nodes (it never
mutates the tree), so it is omitted; the end-of-stream closing sweep,
which consists solely of callback invocations, is omitted with it. -/

/-- `AstNodeType` from `ast.ts`. -/
inductive AstTy where
  | ROOT | BRANCH | COMPOUND | ATOM | INLINE_BRANCHING | PARENTHETICAL
  | HEAD_REF | PREV_SEQ_REF | SORTED_SET_INIT
deriving DecidableEq, Repr

/-- An `ast.ts` `AstNode`: type, the token it was created from (if any),
and children. -/
inductive ATree where
  | node (ty : AstTy) (tokenVal : Option (List Char)) (children : List ATree)

def ATree.ty : ATree → AstTy
  | .node t _ _ => t

def ATree.tokenVal : ATree → Option (List Char)
  | .node _ v _ => v

def ATree.children : ATree → List ATree
  | .node _ _ cs => cs

/-- One ancestor level of the ast.ts cursor. -/
structure ACtx where
  ty : AstTy
  tokenVal : Option (List Char)
  leftRev : List ATree

/-- The cursor of `parseTokens` with the path of its ancestors. -/
structure AZip where
  cur : ATree
  path : List ACtx

/-- Reattach the current node as the last child of its parent context. -/
def aFold (c : ATree) (ctx : ACtx) : ATree :=
  .node ctx.ty ctx.tokenVal (ctx.leftRev.reverse ++ [c])

/-- Fold the zipper all the way up to the root node. -/
def aRoot : ATree → List ACtx → ATree
  | t, [] => t
  | t, ctx :: rest => aRoot (aFold t ctx) rest

/-- `createChild` + move the cursor into the new child. -/
def aDown (z : AZip) (ty : AstTy) (tok : Option (List Char)) : AZip :=
  { cur := .node ty tok []
    path := ⟨z.cur.ty, z.cur.tokenVal, z.cur.children.reverse⟩ :: z.path }

/-- `findClosest`: the predicate is tested on the node itself first, then
on each ancestor in turn. -/
def aClosest (pred : AstTy → Bool) : ATree → List ACtx → Option (ATree × List ACtx)
  | cur, path =>
    if pred cur.ty then some (cur, path)
    else match path with
      | [] => none
      | ctx :: rest => aClosest pred (aFold cur ctx) rest

/-- `findClosestBefore`: stop with success at a `predicate` node, stop
with failure at an `antipredicate` node or at the root. -/
def aClosestBefore (pred anti : AstTy → Bool) :
    ATree → List ACtx → Option (ATree × List ACtx)
  | cur, path =>
    if pred cur.ty then some (cur, path)
    else if anti cur.ty then none
    else match path with
      | [] => none
      | ctx :: rest => aClosestBefore pred anti (aFold cur ctx) rest

/-- `require*` wrappers throw when the search comes back empty. -/
def orThrow {α : Type _} (o : Option α) (msg : String) : Except String α :=
  match o with
  | some a => .ok a
  | none => .error msg

/-- `astTokenHandlers` from `ast.ts`. `R_PAREN`/`R_CURLY`/`R_SQUARE` call
`requireClosestBefore`, which *throws* `Could not find closest node before
antipredicate` when nothing is found; the subsequent
`if (!parenthetical) return cursor` tolerance checks in the source are
therefore unreachable and have no counterpart here. `PREV_REF` tokens
find no handler (the table keys `PREV_SEQ_REF`), which `parseTokens`
reports as `No handler for token type`. -/
def astTokenHandler : TokenType → Token → AZip → Except String AZip
  | .ATOM, tok, z => do
    let ⟨b, p⟩ ← orThrow (aClosest (· == .BRANCH) z.cur z.path)
      "Could not find closest node"
    .ok (aDown ⟨b, p⟩ .ATOM (some tok.value))
  | .BRANCH_SEPARATOR, tok, z => do
    -- `cursor.requireClosest([IB, PAREN, COMPOUND]).createChild(BRANCH)`;
    -- the `applyCallback(cursor.requireClosest('BRANCH'))` only fires the
    -- callback (no mutation) and cannot fail once the group was found.
    let ⟨g, p⟩ ← orThrow
      (aClosest (fun t =>
        t == .INLINE_BRANCHING || t == .PARENTHETICAL || t == .COMPOUND) z.cur z.path)
      "Could not find closest node"
    .ok (aDown ⟨g, p⟩ .BRANCH (some tok.value))
  | .PART_SEPARATOR, _, z => .ok z
  | .L_PAREN, tok, z =>
    .ok (aDown (aDown z .PARENTHETICAL (some tok.value)) .BRANCH none)
  | .R_PAREN, _, z => do
    let ⟨paren, p⟩ ← orThrow
      (aClosestBefore (· == .PARENTHETICAL)
        (fun t => t == .INLINE_BRANCHING || t == .COMPOUND) z.cur z.path)
      "Could not find closest node before antipredicate"
    -- `return parenthetical.requireParent()`
    match p with
    | [] => .error "Node has no parent"
    | ctx :: rest => .ok ⟨aFold paren ctx, rest⟩
  | .L_CURLY, tok, z =>
    .ok (aDown (aDown z .INLINE_BRANCHING (some tok.value)) .BRANCH none)
  | .R_CURLY, _, z => do
    let ⟨ib, p⟩ ← orThrow
      (aClosestBefore (· == .INLINE_BRANCHING)
        (fun t => t == .PARENTHETICAL || t == .COMPOUND) z.cur z.path)
      "Could not find closest node before antipredicate"
    .ok ⟨ib, p⟩
  | .L_SQUARE, tok, z =>
    .ok (aDown (aDown z .COMPOUND (some tok.value)) .BRANCH none)
  | .R_SQUARE, _, z => do
    let ⟨sq, p⟩ ← orThrow
      (aClosestBefore (· == .COMPOUND)
        (fun t => t == .PARENTHETICAL || t == .INLINE_BRANCHING) z.cur z.path)
      "Could not find closest node before antipredicate"
    .ok ⟨sq, p⟩
  | .HEAD_REF, tok, z => do
    let ⟨b, p⟩ ← orThrow (aClosest (· == .BRANCH) z.cur z.path)
      "Could not find closest node"
    .ok (aDown ⟨b, p⟩ .HEAD_REF (some tok.value))
  | .PREV_REF, _, _ => .error "No handler for token type"
  | .SORTED_SET_INIT, tok, z => do
    let ⟨b, p⟩ ← orThrow (aClosest (· == .BRANCH) z.cur z.path)
      "Could not find closest node"
    .ok (aDown ⟨b, p⟩ .SORTED_SET_INIT (some tok.value))

/-- `AstNode.parseTokens` from `ast.ts`: a `ROOT` with one initial
`BRANCH`, one handler step per token, then the root is returned (the
end-of-stream sweep only fires completion callbacks). -/
def astParseTokens (tokens : List Token) : Except String ATree := do
  let init : AZip := { cur := .node .BRANCH none [], path := [⟨.ROOT, none, []⟩] }
  let z ← tokens.foldlM (fun z tok => astTokenHandler tok.type tok z) init
  pure (aRoot z.cur z.path)

/-- C2 (code bug): a stray closing parenthesis is *not* tolerated — on
the token stream of `"foo )"`, whose `R_PAREN` has no matching open
group, `parseTokens` throws `Could not find closest node before
antipredicate` from `requireClosestBefore` instead of ignoring the token;
the source's `if (!parenthetical) return cursor` tolerance branch is dead
code because `requireClosestBefore` throws rather than returning null. -/
theorem astParseTokens_stray_closer_throws :
    (tokenize "foo )".toList).toOption.map astParseTokens =
      some (.error "Could not find closest node before antipredicate") := rfl

end Coeng
